import Mathlib

/-!
Shallow embedding of `cogs/stickers.py` (CookieDough.py).

The program builds, from a two-level `stickers/` directory tree, a catalog of
chat commands: one "category" command per subdirectory and one "sticker"
command per item stem inside a subdirectory, both configurable through
optional `.json` sidecar descriptors.  At invocation time a sticker command
resolves a channel-bound webhook and posts the configured content
impersonating the invoking user.

Python dictionaries are modelled as insertion-ordered association lists with
unique keys; `d[k] = v` keeps an existing key's position and appends new keys
at the end, exactly as CPython does.  Python values reachable in the config
dictionaries are modelled by `Value`; the merge logic is parametric in the
values, so the fragment below suffices for every configuration the program
manipulates.  Fallible I/O (opening and JSON-parsing a descriptor) is
modelled by `FContent`; the external chat transport used at dispatch time is
modelled by an effect oracle recording the calls the callback performs.
-/

set_option autoImplicit false

namespace CookieDough

/-- Python values stored in the configuration dictionaries. -/
inductive Value where
  | vnull
  | vbool (b : Bool)
  | vint (n : Int)
  | vstr (s : String)
  | vstrList (l : List String)
  | vpath (p : String)
  deriving DecidableEq, Repr

/-- Python `str.capitalize`: first character uppercased, the rest lowercased. -/
def pyCapitalize (s : String) : String :=
  match s.data with
  | [] => ""
  | c :: rest => String.mk (c.toUpper :: rest.map Char.toLower)

/-- Source `snake_to_camel`: converts snake_case to CamelCase
(`"".join(word.capitalize() for word in name.split("_"))`). -/
def snake_to_camel (name : String) : String :=
  String.join ((name.splitOn "_").map pyCapitalize)

/-- Source `snake_to_title`: converts snake_case to Title Case
(`" ".join(word.capitalize() for word in name.split("_"))`). -/
def snake_to_title (name : String) : String :=
  String.intercalate " " ((name.splitOn "_").map pyCapitalize)

/-- Python `str()` of a `Value`, used where the source interpolates a config
value into an f-string. -/
def pyStr : Value → String
  | .vnull => "None"
  | .vbool b => if b then "True" else "False"
  | .vint n => toString n
  | .vstr s => s
  | .vstrList l =>
      "[" ++ String.intercalate ", " (l.map (fun s => "\x27" ++ s ++ "\x27")) ++ "]"
  | .vpath p => p

section AList

variable {α : Type} {β : Type} [DecidableEq α]

/-- CPython `d[k] = v`: replace in place if the key is present, else append. -/
def alistSet : List (α × β) → α → β → List (α × β)
  | [], k, v => [(k, v)]
  | p :: rest, k, v => if p.1 = k then (p.1, v) :: rest else p :: alistSet rest k v

/-- CPython `k in d`. -/
def containsKey : List (α × β) → α → Bool
  | [], _ => false
  | p :: rest, k => if p.1 = k then true else containsKey rest k

/-- CPython `d.get(k)` (first — and for our dictionaries the only — binding). -/
def alistGet? : List (α × β) → α → Option β
  | [], _ => none
  | p :: rest, k => if p.1 = k then some p.2 else alistGet? rest k

/-- CPython `d.update(other)`: assign every binding of `other` in order. -/
def updateDict (d other : List (α × β)) : List (α × β) :=
  other.foldl (fun acc p => alistSet acc p.1 p.2) d

end AList

/-- A Python config dictionary. -/
abbrev Dict := List (String × Value)

deriving instance DecidableEq for Except

/-- Lookup `config[k]` for the configuration dictionaries (the defaults always carry
every key the source reads, so the `.vnull` fallback is never observable). -/
def getV (d : Dict) (k : String) : Value :=
  (alistGet? d k).getD .vnull

/-- Outcome of opening and JSON-parsing one descriptor file. -/
inductive FContent where
  /-- Case where `open` (or the read) raises `IOError`: file absent or unreadable. -/
  | ioError
  /-- The file opens but `json.load` raises (invalid structured data). -/
  | badJson
  /-- The file opens and parses to the given JSON object. -/
  | jsonObj (d : Dict)
  deriving DecidableEq, Repr

/-- The `try/except IOError` descriptor-merge block shared by `_walk_root` and
`_walk_category`: `IOError` is swallowed (defaults kept), a parse error
propagates, a parsed document is overlaid with `dict.update`. -/
def tryMergeConfig (defaults : Dict) (c : FContent) : Except Unit Dict :=
  match c with
  | .ioError => .ok defaults
  | .badJson => .error ()
  | .jsonObj d => .ok (updateDict defaults d)

/-- Membership in `IMAGE_SUFFIXES` (the Python set of six media extensions). -/
def isImageSuffix (s : String) : Bool :=
  s = ".gif" || s = ".jpeg" || s = ".jpg" || s = ".png" || s = ".mp4" || s = ".webm"

/-- Membership in `IMAGE_AND_JSON_SUFFIXES` (`IMAGE_SUFFIXES` plus `.json`). -/
def isImageOrJsonSuffix (s : String) : Bool :=
  isImageSuffix s || s = ".json"

/-- One entry of a category directory listing, split as `pathlib` does into
stem and (final) suffix; `isFile` is the `is_file()` test. -/
structure CEntry where
  stem : String
  suffix : String
  isFile : Bool
  deriving DecidableEq, Repr

/-- The sticker config defaults created on first observation of a stem
(`pfxV` is `category_config['prefix']`, interpolated by the f-string). -/
def stickerDefaults (pfxV : Value) (stem : String) : Dict :=
  [("hidden", .vbool true),
   ("name", .vstr (pyStr pfxV ++ snake_to_camel stem)),
   ("aliases", .vstrList []),
   ("message", .vstr ""),
   ("file", .vnull)]

/-- One iteration of the collection loop in `_walk_category`: skip entries
that are not files with a recognized suffix, create the per-stem record on
first observation, then either record the media path or merge the sidecar
descriptor (`content` maps an item stem to the content of `<stem>.json` in
this category, the file opened by `sticker_path.with_suffix('.json')`). -/
def collectStep (content : String → FContent) (catPath : String) (pfxV : Value)
    (sd : List (String × Dict)) (e : CEntry) : Except Unit (List (String × Dict)) :=
  if e.isFile && isImageOrJsonSuffix e.suffix then
    let sd' := if containsKey sd e.stem then sd else sd ++ [(e.stem, stickerDefaults pfxV e.stem)]
    let cfg := (alistGet? sd' e.stem).getD (stickerDefaults pfxV e.stem)
    if isImageSuffix e.suffix then
      .ok (alistSet sd' e.stem (alistSet cfg "file" (.vpath (catPath ++ "/" ++ e.stem ++ e.suffix))))
    else
      match content e.stem with
      | .ioError => .ok sd'
      | .badJson => .error ()
      | .jsonObj d => .ok (alistSet sd' e.stem (updateDict cfg d))
  else
    .ok sd

/-- The collection loop of `_walk_category` over the directory listing; an
uncaught `json.load` error aborts the loop and propagates. -/
def collectLoop (content : String → FContent) (catPath : String) (pfxV : Value) :
    List CEntry → List (String × Dict) → Except Unit (List (String × Dict))
  | [], sd => .ok sd
  | e :: rest, sd =>
    match collectStep content catPath pfxV sd e with
    | .error u => .error u
    | .ok sd' => collectLoop content catPath pfxV rest sd'

/-- A generated sticker command (`_sticker_command` closes over exactly these
config fields). -/
structure StickerCmd where
  name : Value
  aliases : List String
  hidden : Value
  message : Value
  file : Value
  deriving DecidableEq, Repr

/-- Value of `config['aliases']` as handed to `commands.Command`; the registration
loop iterates it as a sequence of names. -/
def aliasList : Value → List String
  | .vstrList l => l
  | _ => []

/-- Build the sticker command record from a resolved config
(`_sticker_command`). -/
def mkStickerCmd (cfg : Dict) : StickerCmd :=
  { name := getV cfg "name"
    aliases := aliasList (getV cfg "aliases")
    hidden := getV cfg "hidden"
    message := getV cfg "message"
    file := getV cfg "file" }

/-- Source `_walk_category`: collect the per-stem records, then, in dictionary
(insertion) order, emit each record's resolved name and its sticker command
(the source appends the name and registers the command in the same loop). -/
def walkCategory (content : String → FContent) (catPath : String) (pfxV : Value)
    (entries : List CEntry) : Except Unit (List Value × List StickerCmd) :=
  match collectLoop content catPath pfxV entries [] with
  | .error u => .error u
  | .ok sd => .ok (sd.map (fun r => getV r.2 "name"), sd.map (fun r => mkStickerCmd r.2))

/-! ### Category commands, the command registry, and the root walk -/

/-- Python `str.format` with one positional argument: `\x7b\x7b` and
`\x7d\x7d` unescape to literal braces, the first `\x7b\x7d` is replaced by
the argument, a second `\x7b\x7d` (auto-numbering past the single argument),
a stray brace, or an unsupported replacement field raises (`none`). -/
def formatAux (arg : List Char) : List Char → Bool → Option (List Char)
  | [], _ => some []
  | c :: cs, used =>
    if c = '\x7b' then
      match cs with
      | [] => none
      | c2 :: cs2 =>
        if c2 = '\x7b' then (formatAux arg cs2 used).map (fun r => '\x7b' :: r)
        else if c2 = '\x7d' then
          if used then none else (formatAux arg cs2 true).map (fun r => arg ++ r)
        else none
    else if c = '\x7d' then
      match cs with
      | [] => none
      | c2 :: cs2 =>
        if c2 = '\x7d' then (formatAux arg cs2 used).map (fun r => '\x7d' :: r) else none
    else (formatAux arg cs used).map (fun r => c :: r)

/-- Python `template.format(arg)` for a single positional argument. -/
def pyFormat1 (template arg : String) : Option String :=
  (formatAux arg.data template.data false).map String.mk

/-- Python `" ".join(sticker_names)`: joins the names with spaces; raises (`none`)
if any element is not a string. -/
def joinNames (names : List Value) : Option String :=
  (names.mapM (fun (v : Value) => match v with | .vstr s => some s | _ => none)).map
    (String.intercalate " ")

/-- A generated category command (`_category_command` closes over exactly
these fields; the formatted listing message is computed at build time). -/
structure CatCmd where
  hidden : Value
  name : Value
  file : Value
  message : String
  deriving DecidableEq, Repr

/-- Source `_category_command`: computes
`message.format(" ".join(sticker_names)).strip()` and packages the command.
The source threads `sticker_names` through the config dictionary under the
key `sticker_names`; the model passes the same list as a parameter.  `none`
models the build-time exception when the template or a name is not a string
or the template is not a single-placeholder format string. -/
def mkCategoryCmd (cfg : Dict) (names : List Value) : Option CatCmd :=
  match getV cfg "message" with
  | .vstr t =>
    match joinNames names with
    | none => none
    | some j =>
      match pyFormat1 t j with
      | none => none
      | some m =>
        some { hidden := getV cfg "hidden", name := getV cfg "name",
               file := getV cfg "file", message := m.trim }
  | _ => none

/-- A registered action: a sticker command or a category command. -/
inductive Action where
  | stickerAct (c : StickerCmd)
  | categoryAct (c : CatCmd)
  deriving DecidableEq, Repr

/-- The bot's command mapping (name or alias to action). -/
abbrev Registry := List (Value × Action)

/-- Modelled from the spec: `bot.add_command` belongs to the host
command-invocation framework (an external collaborator, §6); per the spec's
Registry contract, an action is entered under its primary name and under
every alias, and "collision policy is last registration wins". -/
def addCommand (reg : Registry) (a : Action) : Registry :=
  match a with
  | .stickerAct c =>
    (c.aliases.map Value.vstr).foldl (fun r k => alistSet r k a) (alistSet reg c.name a)
  | .categoryAct c => alistSet reg c.name a

/-- The primary registry key of an action (`Command.name`). -/
def Action.primaryName : Action → Value
  | .stickerAct c => c.name
  | .categoryAct c => c.name

/-- The alias registry keys of an action (`Command.aliases`; category
commands are created without aliases). -/
def Action.aliasNames : Action → List Value
  | .stickerAct c => c.aliases.map Value.vstr
  | .categoryAct _ => []

/-- One entry of the root directory listing, split into stem and suffix
(`is_dir()` recorded); the directory name is `stem ++ suffix`. -/
structure RootEntry where
  stem : String
  suffix : String
  isDir : Bool
  deriving DecidableEq, Repr

/-- A snapshot of the `stickers/` tree: the root listing in iteration order,
existence of root-level files (thumbnail probes), content of root-level
`<stem>.json` descriptors, each category directory's listing, and content of
each `<dirname>/<stem>.json` item descriptor. -/
structure FS where
  rootEntries : List RootEntry
  rootExists : String → Bool
  rootContent : String → FContent
  catEntries : String → List CEntry
  catContent : String → String → FContent

/-- The category config defaults built at the top of the `_walk_root` loop. -/
def categoryDefaults (stem : String) : Dict :=
  [("hidden", .vbool true),
   ("name", .vstr (snake_to_camel stem)),
   ("prefix", .vstr ""),
   ("message", .vstr (snake_to_title stem ++ " stickers\n```\x7b\x7d```")),
   ("file", .vnull)]

/-- The thumbnail probe loop: the first extension, in the iteration order
`extOrder` of the `IMAGE_SUFFIXES` set, for which `stickers/<stem><ext>`
exists. -/
def findThumb (fs : FS) (extOrder : List String) (stem : String) : Option String :=
  (extOrder.find? (fun ext => fs.rootExists (stem ++ ext))).map
    (fun ext => "stickers/" ++ stem ++ ext)

/-- The mutable state `_walk_root` builds up on the cog and the bot. -/
structure BuildState where
  registry : Registry
  categoryNames : List Value
  categoryStickerNames : List (Value × List Value)
  deriving Repr

/-- The category defaults after the thumbnail probe: `category_config` as it
stands when the descriptor merge is attempted. -/
def categoryInitCfg (fs : FS) (extOrder : List String) (stem : String) : Dict :=
  match findThumb fs extOrder stem with
  | some p => alistSet (categoryDefaults stem) "file" (.vpath p)
  | none => categoryDefaults stem

/-- One iteration of the `_walk_root` loop.  The Boolean result is `true`
when the iteration raises; the returned state keeps every mutation performed
before the raise (the source mutates `self` and the shared bot in place, so
an exception does not undo earlier registrations). -/
def processCategory (fs : FS) (extOrder : List String) (st : BuildState)
    (e : RootEntry) : BuildState × Bool :=
  if e.isDir then
    let dirname := e.stem ++ e.suffix
    match tryMergeConfig (categoryInitCfg fs extOrder e.stem) (fs.rootContent e.stem) with
    | .error _ => (st, true)
    | .ok cfg =>
      let categoryName := getV cfg "name"
      let st1 := { st with categoryNames := st.categoryNames ++ [categoryName] }
      match walkCategory (fs.catContent dirname) ("stickers/" ++ dirname)
          (getV cfg "prefix") (fs.catEntries dirname) with
      | .error _ => (st1, true)
      | .ok (names, cmds) =>
        let st2 := { st1 with
          registry := cmds.foldl (fun r c => addCommand r (.stickerAct c)) st1.registry,
          categoryStickerNames := alistSet st1.categoryStickerNames categoryName names }
        match mkCategoryCmd cfg names with
        | none => (st2, true)
        | some ccmd =>
          ({ st2 with registry := addCommand st2.registry (.categoryAct ccmd) }, false)
  else
    (st, false)

/-- The `_walk_root` loop over the root listing, stopping at the first
raised exception. -/
def runRoot (fs : FS) (extOrder : List String) :
    List RootEntry → BuildState → BuildState × Bool
  | [], st => (st, false)
  | e :: rest, st =>
    match processCategory fs extOrder st e with
    | (st', false) => runRoot fs extOrder rest st'
    | (st', true) => (st', true)

/-- The empty state the cog starts from. -/
def emptyBuild : BuildState := ⟨[], [], []⟩

/-- The whole catalog build (`Stickers.__init__` / `_walk_root`):
`extOrder` is the process-fixed iteration order of the `IMAGE_SUFFIXES` set. -/
def walkRoot (fs : FS) (extOrder : List String) : BuildState × Bool :=
  runRoot fs extOrder fs.rootEntries emptyBuild

/-! ### Dispatch-time behaviour of the generated commands -/

/-- One delivery credential as enumerated by `ctx.guild.webhooks()`. -/
structure WebhookInfo where
  channelName : String
  token : Option String
  url : String
  deriving DecidableEq, Repr

/-- The parts of the invocation context the sticker callback reads. -/
structure CtxInfo where
  channelName : String
  displayName : String
  avatarUrl : String
  deriving DecidableEq, Repr

/-- Behaviour of the external transport during one invocation:
whether webhook enumeration succeeds and with what list, what
`Webhook.from_url` yields (`discord.py` returns a webhook object or raises;
the source's `is None` test is kept as the `ok none` case), and whether the
delete and the two kinds of send raise. -/
structure Oracle where
  webhooksResult : Except Unit (List WebhookInfo)
  fromUrlResult : Except Unit (Option String)
  deleteOk : Bool
  noticeOk : Bool
  sendOk : Bool

/-- An observable external call attempted by a callback, in order. -/
inductive Event where
  | sendNotice (text : String) (deleteAfterSeconds : Nat)
  | deleteMessage
  | webhookSend (url avatarUrl username : String) (content : Value) (file : Option Value)
  | channelSend (text : String) (file : Option Value)
  deriving DecidableEq, Repr

/-- Python `None if file is None else discord.File(file)`. -/
def toFile (v : Value) : Option Value :=
  if v = .vnull then none else some v

/-- The webhook-selection loop of the sticker callback: the first enumerated
webhook whose channel name equals the invoking channel's name and whose
token `is not None`. -/
def findWebhook (whs : List WebhookInfo) (ch : String) : Option WebhookInfo :=
  whs.find? (fun w => w.channelName == ch && w.token.isSome)

/-- The sticker command callback (`_sticker_command`): resolve a webhook; if
none qualifies, send a transient notice and return; otherwise build the
webhook object, delete the triggering message, and deliver through the
webhook impersonating the invoking user.  Returns the attempted external
calls in order and whether the callback returned normally or raised. -/
def stickerCallback (message fileV : Value) (ctx : CtxInfo) (o : Oracle) :
    List Event × Except Unit Unit :=
  match o.webhooksResult with
  | .error _ => ([], .error ())
  | .ok whs =>
    match findWebhook whs ctx.channelName with
    | none =>
      ([.sendNotice ("Missing webhook for #" ++ ctx.channelName) 8],
       if o.noticeOk then .ok () else .error ())
    | some wh =>
      match o.fromUrlResult with
      | .error _ => ([], .error ())
      | .ok none =>
        ([.sendNotice ("Unable find a webhook in #" ++ ctx.channelName ++ "!") 8],
         if o.noticeOk then .ok () else .error ())
      | .ok (some _) =>
        if o.deleteOk then
          ([.deleteMessage,
            .webhookSend wh.url ctx.avatarUrl ctx.displayName message (toFile fileV)],
           if o.sendOk then .ok () else .error ())
        else
          ([.deleteMessage], .error ())

/-- The category command callback: sends the prebuilt listing message with
the thumbnail attached when one is present. -/
def catInvoke (c : CatCmd) : Event :=
  .channelSend c.message (toFile c.file)

/-! ### Lemmas about the dictionary model -/

section AListLemmas

variable {α : Type} {β : Type} [DecidableEq α]

@[simp]
theorem alistGet?_set_self (l : List (α × β)) (k : α) (v : β) :
    alistGet? (alistSet l k v) k = some v := by
  induction l with
  | nil => simp [alistSet, alistGet?]
  | cons p rest ih =>
    by_cases h : p.1 = k <;> simp [alistSet, alistGet?, h, ih]

theorem alistGet?_set_ne (l : List (α × β)) {k' k : α} (v : β) (hne : k' ≠ k) :
    alistGet? (alistSet l k' v) k = alistGet? l k := by
  induction l with
  | nil => simp [alistSet, alistGet?, hne]
  | cons p rest ih =>
    by_cases h : p.1 = k'
    · have hk : p.1 ≠ k := h ▸ hne
      simp [alistSet, alistGet?, h, hk, hne]
    · simp [alistSet, alistGet?, h, ih]

theorem alistSet_set_same (l : List (α × β)) (k : α) (v w : β) :
    alistSet (alistSet l k v) k w = alistSet l k w := by
  induction l with
  | nil => simp [alistSet]
  | cons p rest ih =>
    by_cases h : p.1 = k <;> simp [alistSet, h, ih]

@[simp]
theorem containsKey_set_self (l : List (α × β)) (k : α) (v : β) :
    containsKey (alistSet l k v) k = true := by
  induction l with
  | nil => simp [alistSet, containsKey]
  | cons p rest ih =>
    by_cases h : p.1 = k <;> simp [alistSet, containsKey, h, ih]

theorem containsKey_set_of (l : List (α × β)) {k : α} (k' : α) (v : β)
    (h : containsKey l k = true) :
    containsKey (alistSet l k' v) k = true := by
  induction l with
  | nil => simp [containsKey] at h
  | cons p rest ih =>
    by_cases hp : p.1 = k'
    · by_cases hk : p.1 = k <;> simp_all [alistSet, containsKey]
    · by_cases hk : p.1 = k <;> simp_all [alistSet, containsKey]

theorem containsKey_eq_false_iff (l : List (α × β)) (k : α) :
    containsKey l k = false ↔ ∀ p ∈ l, p.1 ≠ k := by
  induction l with
  | nil => simp [containsKey]
  | cons p rest ih =>
    by_cases h : p.1 = k <;> simp [containsKey, h, ih]

theorem mem_alistSet_val {l : List (α × β)} {k : α} {v : β} {p : α × β}
    (h : p ∈ alistSet l k v) : p.2 = v ∨ p ∈ l := by
  induction l with
  | nil => simp [alistSet] at h; simp [h]
  | cons q rest ih =>
    by_cases hq : q.1 = k
    · simp only [alistSet, if_pos hq, List.mem_cons] at h
      rcases h with h | h
      · left; simp [h]
      · right; simp [h]
    · simp only [alistSet, if_neg hq, List.mem_cons] at h
      rcases h with h | h
      · right; simp [h]
      · rcases ih h with h' | h'
        · exact Or.inl h'
        · exact Or.inr (List.mem_cons_of_mem _ h')

theorem mem_alistSet_key {l : List (α × β)} {k : α} {v : β} {p : α × β}
    (h : p ∈ alistSet l k v) : p.1 = k ∨ p ∈ l := by
  induction l with
  | nil => simp [alistSet] at h; simp [h]
  | cons q rest ih =>
    by_cases hq : q.1 = k
    · simp only [alistSet, if_pos hq, List.mem_cons] at h
      rcases h with h | h
      · left; rw [h]; exact hq
      · right; simp [h]
    · simp only [alistSet, if_neg hq, List.mem_cons] at h
      rcases h with h | h
      · right; simp [h]
      · rcases ih h with h' | h'
        · exact Or.inl h'
        · exact Or.inr (List.mem_cons_of_mem _ h')

theorem alistSet_comm (l : List (α × β)) {k k' : α} (v v' : β)
    (hc : containsKey l k = true) (hne : k ≠ k') :
    alistSet (alistSet l k v) k' v' = alistSet (alistSet l k' v') k v := by
  induction l with
  | nil => simp [containsKey] at hc
  | cons p rest ih =>
    by_cases hk : p.1 = k
    · have hk' : ¬ p.1 = k' := by rw [hk]; exact hne
      simp [alistSet, hk, hk', hne, Ne.symm hne]
    · by_cases hk' : p.1 = k'
      · simp [alistSet, hk, hk', hne, Ne.symm hne]
      · have hc' : containsKey rest k = true := by
          simpa [containsKey, hk] using hc
        simp [alistSet, hk, hk', ih hc']

@[simp]
theorem updateDict_nil (l : List (α × β)) : updateDict l [] = l := rfl

@[simp]
theorem updateDict_cons (l : List (α × β)) (k : α) (v : β) (d : List (α × β)) :
    updateDict l ((k, v) :: d) = updateDict (alistSet l k v) d := rfl

theorem containsKey_update (l d : List (α × β)) {k : α}
    (h : containsKey l k = true) : containsKey (updateDict l d) k = true := by
  induction d generalizing l with
  | nil => simpa using h
  | cons p d' ih => exact ih _ (containsKey_set_of l p.1 p.2 h)

theorem updateDict_set_comm (l d : List (α × β)) {k : α} (v : β)
    (hc : containsKey l k = true) (hd : containsKey d k = false) :
    updateDict (alistSet l k v) d = alistSet (updateDict l d) k v := by
  induction d generalizing l with
  | nil => rfl
  | cons p d' ih =>
    have hne : p.1 ≠ k := by
      intro h
      simp [containsKey, h] at hd
    have hd' : containsKey d' k = false := by
      simpa [containsKey, hne] using hd
    calc updateDict (alistSet l k v) ((p.1, p.2) :: d')
        = updateDict (alistSet (alistSet l k v) p.1 p.2) d' := rfl
      _ = updateDict (alistSet (alistSet l p.1 p.2) k v) d' := by
          rw [alistSet_comm l v p.2 hc (fun h => hne h.symm)]
      _ = alistSet (updateDict (alistSet l p.1 p.2) d') k v :=
          ih _ (containsKey_set_of l p.1 p.2 hc) hd'
      _ = alistSet (updateDict l ((p.1, p.2) :: d')) k v := rfl

theorem alistGet?_update_ne (l d : List (α × β)) {k : α}
    (hd : containsKey d k = false) :
    alistGet? (updateDict l d) k = alistGet? l k := by
  induction d generalizing l with
  | nil => rfl
  | cons p d' ih =>
    have hne : p.1 ≠ k := by
      intro h
      simp [containsKey, h] at hd
    have hd' : containsKey d' k = false := by
      simpa [containsKey, hne] using hd
    calc alistGet? (updateDict l ((p.1, p.2) :: d')) k
        = alistGet? (updateDict (alistSet l p.1 p.2) d') k := rfl
      _ = alistGet? (alistSet l p.1 p.2) k := ih _ hd'
      _ = alistGet? l k := alistGet?_set_ne l p.2 hne

theorem containsKey_append (l₁ l₂ : List (α × β)) (k : α) :
    containsKey (l₁ ++ l₂) k = (containsKey l₁ k || containsKey l₂ k) := by
  induction l₁ with
  | nil => simp [containsKey]
  | cons p rest ih =>
    by_cases h : p.1 = k <;> simp [containsKey, h, ih]

theorem alistGet?_append_right (l₁ l₂ : List (α × β)) {k : α}
    (h : containsKey l₁ k = false) :
    alistGet? (l₁ ++ l₂) k = alistGet? l₂ k := by
  induction l₁ with
  | nil => rfl
  | cons p rest ih =>
    have hne : p.1 ≠ k := by
      intro hk
      simp [containsKey, hk] at h
    have h' : containsKey rest k = false := by
      simpa [containsKey, hne] using h
    simp [alistGet?, hne, ih h']

theorem alistSet_append_right (l₁ l₂ : List (α × β)) {k : α} (v : β)
    (h : containsKey l₁ k = false) :
    alistSet (l₁ ++ l₂) k v = l₁ ++ alistSet l₂ k v := by
  induction l₁ with
  | nil => rfl
  | cons p rest ih =>
    have hne : p.1 ≠ k := by
      intro hk
      simp [containsKey, hk] at h
    have h' : containsKey rest k = false := by
      simpa [containsKey, hne] using h
    simp [alistSet, hne, ih h']

theorem alistSet_append_left (l₁ l₂ : List (α × β)) {k : α} (v : β)
    (h : containsKey l₁ k = true) :
    alistSet (l₁ ++ l₂) k v = alistSet l₁ k v ++ l₂ := by
  induction l₁ with
  | nil => simp [containsKey] at h
  | cons p rest ih =>
    by_cases hp : p.1 = k
    · simp [alistSet, hp]
    · have h' : containsKey rest k = true := by
        simpa [containsKey, hp] using h
      simp [alistSet, hp, ih h']

theorem alistGet?_append_left (l₁ l₂ : List (α × β)) {k : α}
    (h : containsKey l₁ k = true) :
    alistGet? (l₁ ++ l₂) k = alistGet? l₁ k := by
  induction l₁ with
  | nil => simp [containsKey] at h
  | cons p rest ih =>
    by_cases hp : p.1 = k
    · simp [alistGet?, hp]
    · have h' : containsKey rest k = true := by
        simpa [containsKey, hp] using h
      simp [alistGet?, hp, ih h']

theorem containsKey_reverse (l : List (α × β)) (k : α) :
    containsKey l.reverse k = containsKey l k := by
  induction l with
  | nil => rfl
  | cons p rest ih =>
    rw [List.reverse_cons, containsKey_append, ih]
    by_cases hp : p.1 = k <;> simp [containsKey, hp]

theorem containsKey_of_get? {l : List (α × β)} {k : α} {v : β}
    (h : alistGet? l k = some v) : containsKey l k = true := by
  induction l with
  | nil => simp [alistGet?] at h
  | cons p rest ih =>
    by_cases hp : p.1 = k
    · simp [containsKey, hp]
    · simp only [alistGet?, if_neg hp] at h
      simp [containsKey, hp, ih h]

/-- After `d.update(other)`, a key present in `other` holds the value of its
last binding in `other` (the first binding of the reversed list). -/
theorem alistGet?_update_last (r d : List (α × β)) {k : α}
    (hc : containsKey d k = true) :
    alistGet? (updateDict r d) k = alistGet? d.reverse k := by
  induction d generalizing r with
  | nil => simp [containsKey] at hc
  | cons p d' ih =>
    rw [List.reverse_cons]
    by_cases hd' : containsKey d' k
    · calc alistGet? (updateDict r (p :: d')) k
          = alistGet? (updateDict (alistSet r p.1 p.2) d') k := rfl
        _ = alistGet? d'.reverse k := ih _ hd'
        _ = alistGet? (d'.reverse ++ [p]) k := by
            rw [alistGet?_append_left d'.reverse [p]
              (by rw [containsKey_reverse]; exact hd')]
    · have hpk : p.1 = k := by
        by_cases hp : p.1 = k
        · exact hp
        · simp [containsKey, hp, hd'] at hc
      have hd'f : containsKey d' k = false := by simpa using hd'
      calc alistGet? (updateDict r (p :: d')) k
          = alistGet? (updateDict (alistSet r p.1 p.2) d') k := rfl
        _ = alistGet? (alistSet r p.1 p.2) k := alistGet?_update_ne _ d' hd'f
        _ = some p.2 := by rw [← hpk]; exact alistGet?_set_self r p.1 p.2
        _ = alistGet? (d'.reverse ++ [p]) k := by
            rw [alistGet?_append_right d'.reverse [p]
              (by rw [containsKey_reverse]; exact hd'f)]
            simp [alistGet?, hpk]

theorem alistGet?_mem {l : List (α × β)} {k : α} {v : β}
    (h : alistGet? l k = some v) : ∃ k', (k', v) ∈ l := by
  induction l with
  | nil => simp [alistGet?] at h
  | cons p rest ih =>
    obtain ⟨a, b⟩ := p
    by_cases hp : a = k
    · simp only [alistGet?, if_pos hp] at h
      injection h with h
      exact ⟨a, by simp [h]⟩
    · simp only [alistGet?, if_neg hp] at h
      rcases ih h with ⟨k', hk'⟩
      exact ⟨k', List.mem_cons_of_mem _ hk'⟩

end AListLemmas

/-- First-match characterization of `List.find?`, forward direction. -/
theorem find?_eq_some_split {α : Type} (p : α → Bool) (l : List α) (a : α)
    (h : l.find? p = some a) :
    p a = true ∧ ∃ l₁ l₂, l = l₁ ++ a :: l₂ ∧ ∀ x ∈ l₁, p x = false := by
  induction l with
  | nil => simp [List.find?] at h
  | cons x rest ih =>
    by_cases hx : p x
    · rw [List.find?_cons_of_pos _ hx] at h
      obtain rfl : x = a := by injection h
      exact ⟨hx, [], rest, rfl, by simp⟩
    · rw [List.find?_cons_of_neg _ hx] at h
      obtain ⟨hpa, l₁, l₂, rfl, hl₁⟩ := ih h
      refine ⟨hpa, x :: l₁, l₂, rfl, ?_⟩
      intro y hy
      rcases List.mem_cons.mp hy with rfl | hy
      · simpa using hx
      · exact hl₁ y hy

/-- First-match characterization of `List.find?`, converse direction. -/
theorem find?_append_eq_some {α : Type} (p : α → Bool) (l₁ l₂ : List α) (a : α)
    (hpa : p a = true) (hl₁ : ∀ x ∈ l₁, p x = false) :
    (l₁ ++ a :: l₂).find? p = some a := by
  induction l₁ with
  | nil => simp [List.find?_cons_of_pos _ hpa]
  | cons x rest ih =>
    have hx : ¬ p x := by simp [hl₁ x (by simp)]
    simp only [List.cons_append]
    rw [List.find?_cons_of_neg _ hx]
    exact ih (fun y hy => hl₁ y (List.mem_cons_of_mem _ hy))

/-! ### Lemmas about the category walk -/

theorem containsKey_stickerDefaults_file (pfxV : Value) (s : String) :
    containsKey (stickerDefaults pfxV s) "file" = true := rfl

theorem getV_stickerDefaults_file (pfxV : Value) (s : String) :
    getV (stickerDefaults pfxV s) "file" = .vnull := rfl

theorem collectLoop_append (content : String → FContent) (catPath : String)
    (pfxV : Value) (l₁ l₂ : List CEntry) (sd : List (String × Dict)) :
    collectLoop content catPath pfxV (l₁ ++ l₂) sd =
      match collectLoop content catPath pfxV l₁ sd with
      | .error u => .error u
      | .ok sd' => collectLoop content catPath pfxV l₂ sd' := by
  induction l₁ generalizing sd with
  | nil => simp [collectLoop]
  | cons e rest ih =>
    simp only [List.cons_append, collectLoop]
    cases collectStep content catPath pfxV sd e with
    | error u => rfl
    | ok sd' => exact ih sd'

/-- Every record the collection loop holds descends from the sticker
defaults, hence carries a `file` key. -/
theorem collectStep_file_invariant {content : String → FContent}
    {catPath : String} {pfxV : Value} {sd sd' : List (String × Dict)} {e : CEntry}
    (hinv : ∀ p ∈ sd, containsKey p.2 "file" = true)
    (h : collectStep content catPath pfxV sd e = .ok sd') :
    ∀ p ∈ sd', containsKey p.2 "file" = true := by
  by_cases hrel : e.isFile && isImageOrJsonSuffix e.suffix
  · simp only [collectStep, if_pos hrel] at h
    set sd₁ := if containsKey sd e.stem then sd
      else sd ++ [(e.stem, stickerDefaults pfxV e.stem)] with hsd₁
    have hinv₁ : ∀ p ∈ sd₁, containsKey p.2 "file" = true := by
      rw [hsd₁]
      by_cases hc : containsKey sd e.stem
      · simpa [hc] using hinv
      · simp only [if_neg hc]
        intro p hp
        rcases List.mem_append.mp hp with hp | hp
        · exact hinv p hp
        · simp only [List.mem_singleton] at hp
          rw [hp]
          exact containsKey_stickerDefaults_file pfxV e.stem
    have hcfg : containsKey ((alistGet? sd₁ e.stem).getD (stickerDefaults pfxV e.stem))
        "file" = true := by
      cases hg : alistGet? sd₁ e.stem with
      | none => simpa using containsKey_stickerDefaults_file pfxV e.stem
      | some r =>
        obtain ⟨k', hk'⟩ := alistGet?_mem hg
        simpa using hinv₁ (k', r) hk'
    by_cases him : isImageSuffix e.suffix
    · simp only [if_pos him, Except.ok.injEq] at h
      subst h
      intro p hp
      rcases mem_alistSet_val hp with hv | hv
      · rw [hv]
        exact containsKey_set_of _ _ _ hcfg
      · exact hinv₁ p hv
    · simp only [if_neg him] at h
      cases hct : content e.stem with
      | ioError =>
        rw [hct] at h
        injection h with h
        subst h
        exact hinv₁
      | badJson => rw [hct] at h; cases h
      | jsonObj d =>
        rw [hct] at h
        injection h with h
        subst h
        intro p hp
        rcases mem_alistSet_val hp with hv | hv
        · rw [hv]
          exact containsKey_update _ d hcfg
        · exact hinv₁ p hv
  · simp only [collectStep, if_neg hrel] at h
    injection h with h
    subst h
    exact hinv

theorem collectLoop_file_invariant {content : String → FContent}
    {catPath : String} {pfxV : Value} {entries : List CEntry}
    {sd sd' : List (String × Dict)}
    (hinv : ∀ p ∈ sd, containsKey p.2 "file" = true)
    (h : collectLoop content catPath pfxV entries sd = .ok sd') :
    ∀ p ∈ sd', containsKey p.2 "file" = true := by
  induction entries generalizing sd with
  | nil =>
    simp only [collectLoop, Except.ok.injEq] at h
    subst h
    exact hinv
  | cons e rest ih =>
    simp only [collectLoop] at h
    cases hs : collectStep content catPath pfxV sd e with
    | error u => rw [hs] at h; cases h
    | ok sd₁ =>
      rw [hs] at h
      exact ih (collectStep_file_invariant hinv hs) h

/-- Core of the order-independence result: with a descriptor that does not
set `file`, observing the media file then the descriptor produces the same
collection state as the opposite order, from any state whose records all
carry a `file` key. -/
theorem collectLoop_swap (content : String → FContent) (catPath : String)
    (pfxV : Value) {s sfx : String} {d : Dict} (sd : List (String × Dict))
    (him : isImageSuffix sfx = true)
    (hct : content s = .jsonObj d)
    (hdf : containsKey d "file" = false)
    (hinv : ∀ p ∈ sd, containsKey p.2 "file" = true) :
    collectLoop content catPath pfxV [⟨s, sfx, true⟩, ⟨s, ".json", true⟩] sd =
      collectLoop content catPath pfxV [⟨s, ".json", true⟩, ⟨s, sfx, true⟩] sd := by
  have hrelm : (true && isImageOrJsonSuffix sfx) = true := by
    simp [isImageOrJsonSuffix, him]
  have hrelj : (true && isImageOrJsonSuffix ".json") = true := by
    simp [isImageOrJsonSuffix]
  have hjm : isImageSuffix ".json" = false := rfl
  set sd₁ := if containsKey sd s then sd else sd ++ [(s, stickerDefaults pfxV s)] with hsd₁
  set cfg := (alistGet? sd₁ s).getD (stickerDefaults pfxV s) with hcfg
  have hcfgfile : containsKey cfg "file" = true := by
    rw [hcfg]
    cases hg : alistGet? sd₁ s with
    | none => simpa using containsKey_stickerDefaults_file pfxV s
    | some r =>
      obtain ⟨k', hk'⟩ := alistGet?_mem hg
      have hmem : (k', r) ∈ sd₁ := hk'
      rw [hsd₁] at hmem
      by_cases hc : containsKey sd s
      · rw [if_pos hc] at hmem
        simpa using hinv (k', r) hmem
      · rw [if_neg hc] at hmem
        rcases List.mem_append.mp hmem with hm | hm
        · simpa using hinv (k', r) hm
        · simp only [List.mem_singleton, Prod.mk.injEq] at hm
          simp [hm.2]
          exact containsKey_stickerDefaults_file pfxV s
  set P : Value := .vpath (catPath ++ "/" ++ s ++ sfx) with hP
  -- media first, descriptor second
  have hleft : collectLoop content catPath pfxV [⟨s, sfx, true⟩, ⟨s, ".json", true⟩] sd =
      .ok (alistSet sd₁ s (updateDict (alistSet cfg "file" P) d)) := by
    simp only [collectLoop, collectStep, hrelm, hrelj, if_pos, him, if_true, hjm,
      if_false, hct, ← hsd₁, ← hcfg, ← hP, Bool.true_and]
    simp [containsKey_set_self, alistSet_set_same]
  -- descriptor first, media second
  have hright : collectLoop content catPath pfxV [⟨s, ".json", true⟩, ⟨s, sfx, true⟩] sd =
      .ok (alistSet sd₁ s (alistSet (updateDict cfg d) "file" P)) := by
    simp only [collectLoop, collectStep, hrelm, hrelj, if_pos, him, if_true, hjm,
      if_false, hct, ← hsd₁, ← hcfg, ← hP, Bool.true_and]
    simp [containsKey_set_self, alistSet_set_same]
  rw [hleft, hright, updateDict_set_comm cfg d P hcfgfile hdf]

/-! ### Claim C1 -/

/-- C1 counterexample: when the descriptor does contain a `file` key, the
resolved record differs depending on whether the media file or the
descriptor is observed first — media-last keeps the media path, while
descriptor-last keeps the descriptor's `file` value.  This refutes the
claim that the resolved record is identical "even when the descriptor
contains a `file` key". -/
theorem stem_merge_order_counterexample :
    (walkCategory (fun _ => .jsonObj [("file", .vstr "custom")]) "stickers/pets"
        (.vstr "") [⟨"woof", ".png", true⟩, ⟨"woof", ".json", true⟩]).toOption.map
        (fun pr => pr.2.map StickerCmd.file) ≠
      (walkCategory (fun _ => .jsonObj [("file", .vstr "custom")]) "stickers/pets"
        (.vstr "") [⟨"woof", ".json", true⟩, ⟨"woof", ".png", true⟩]).toOption.map
        (fun pr => pr.2.map StickerCmd.file) := by
  decide

/-- C1 (amended): a media file and a descriptor file sharing a stem resolve
to exactly one ItemConfig; provided the descriptor does not itself contain a
`file` key, the resolved record is identical whether the media file or the
descriptor is observed first (in any surrounding directory listing); when
the descriptor does contain `file`, whichever observation is processed last
determines the `file` field: media-last keeps the media path, and
descriptor-last keeps the descriptor's `file` value (its last binding). -/
theorem stem_merge_order_amended :
    ∀ (content : String → FContent) (catPath : String) (pfxV : Value)
      (pre post : List CEntry) (s sfx : String) (d : Dict),
      isImageSuffix sfx = true →
      content s = .jsonObj d →
      (containsKey d "file" = false →
        walkCategory content catPath pfxV
            (pre ++ ⟨s, sfx, true⟩ :: ⟨s, ".json", true⟩ :: post) =
          walkCategory content catPath pfxV
            (pre ++ ⟨s, ".json", true⟩ :: ⟨s, sfx, true⟩ :: post))
      ∧ walkCategory content catPath pfxV [⟨s, sfx, true⟩, ⟨s, ".json", true⟩] =
          .ok ([getV (updateDict (alistSet (stickerDefaults pfxV s) "file"
                  (.vpath (catPath ++ "/" ++ s ++ sfx))) d) "name"],
               [mkStickerCmd (updateDict (alistSet (stickerDefaults pfxV s) "file"
                  (.vpath (catPath ++ "/" ++ s ++ sfx))) d)])
      ∧ walkCategory content catPath pfxV [⟨s, ".json", true⟩, ⟨s, sfx, true⟩] =
          .ok ([getV (alistSet (updateDict (stickerDefaults pfxV s) d) "file"
                  (.vpath (catPath ++ "/" ++ s ++ sfx))) "name"],
               [mkStickerCmd (alistSet (updateDict (stickerDefaults pfxV s) d) "file"
                  (.vpath (catPath ++ "/" ++ s ++ sfx)))])
      ∧ (mkStickerCmd (alistSet (updateDict (stickerDefaults pfxV s) d) "file"
            (.vpath (catPath ++ "/" ++ s ++ sfx)))).file =
          .vpath (catPath ++ "/" ++ s ++ sfx)
      ∧ (∀ v, alistGet? d.reverse "file" = some v →
          (mkStickerCmd (updateDict (alistSet (stickerDefaults pfxV s) "file"
            (.vpath (catPath ++ "/" ++ s ++ sfx))) d)).file = v) := by
  intro content catPath pfxV pre post s sfx d him hct
  have hrelm : (true && isImageOrJsonSuffix sfx) = true := by
    simp [isImageOrJsonSuffix, him]
  have h1 : isImageOrJsonSuffix ".json" = true := rfl
  have h2 : isImageSuffix ".json" = false := rfl
  refine ⟨fun hdf => ?_, ?_, ?_, ?_, ?_⟩
  · have hcore : collectLoop content catPath pfxV
        (pre ++ ([⟨s, sfx, true⟩, ⟨s, ".json", true⟩] ++ post)) [] =
        collectLoop content catPath pfxV
          (pre ++ ([⟨s, ".json", true⟩, ⟨s, sfx, true⟩] ++ post)) [] := by
      rw [collectLoop_append content catPath pfxV pre _ [],
          collectLoop_append content catPath pfxV pre _ []]
      cases hpre : collectLoop content catPath pfxV pre [] with
      | error u => rfl
      | ok sd =>
        show collectLoop content catPath pfxV
            ([⟨s, sfx, true⟩, ⟨s, ".json", true⟩] ++ post) sd =
          collectLoop content catPath pfxV
            ([⟨s, ".json", true⟩, ⟨s, sfx, true⟩] ++ post) sd
        have hinv : ∀ p ∈ sd, containsKey p.2 "file" = true :=
          collectLoop_file_invariant (by simp) hpre
        rw [collectLoop_append content catPath pfxV _ post sd,
            collectLoop_append content catPath pfxV _ post sd,
            collectLoop_swap content catPath pfxV sd him hct hdf hinv]
    show walkCategory content catPath pfxV
        (pre ++ ([⟨s, sfx, true⟩, ⟨s, ".json", true⟩] ++ post)) =
      walkCategory content catPath pfxV
        (pre ++ ([⟨s, ".json", true⟩, ⟨s, sfx, true⟩] ++ post))
    unfold walkCategory
    rw [hcore]
  · simp only [walkCategory, collectLoop, collectStep, hrelm, him, if_true,
      Bool.true_and, h1, h2]
    simp [containsKey, alistGet?, alistSet, hct, h2]
  · simp only [walkCategory, collectLoop, collectStep, hrelm, him, if_true,
      Bool.true_and, h1, h2]
    simp [containsKey, alistGet?, alistSet, hct, h2]
  · show getV (alistSet (updateDict (stickerDefaults pfxV s) d) "file"
        (.vpath (catPath ++ "/" ++ s ++ sfx))) "file" =
      .vpath (catPath ++ "/" ++ s ++ sfx)
    unfold getV
    rw [alistGet?_set_self]
    rfl
  · intro v hv
    show getV (updateDict (alistSet (stickerDefaults pfxV s) "file"
        (.vpath (catPath ++ "/" ++ s ++ sfx))) d) "file" = v
    unfold getV
    rw [alistGet?_update_last _ d
        (by rw [← containsKey_reverse]; exact containsKey_of_get? hv), hv]
    rfl

/-- C1 amended witness: a file-free descriptor gives the same result in both
orders, and with a descriptor carrying `file: "custom"` the media-last order
resolves `file` to the media path while the descriptor-last order resolves
it to `custom`. -/
theorem stem_merge_order_amended_witness :
    (walkCategory (fun _ => .jsonObj [("message", .vstr "woof!")]) "stickers/pets"
        (.vstr "") [⟨"woof", ".png", true⟩, ⟨"woof", ".json", true⟩] =
      walkCategory (fun _ => .jsonObj [("message", .vstr "woof!")]) "stickers/pets"
        (.vstr "") [⟨"woof", ".json", true⟩, ⟨"woof", ".png", true⟩])
    ∧ (mkStickerCmd (alistSet (updateDict (stickerDefaults (.vstr "") "woof")
          [("file", .vstr "custom")]) "file"
          (.vpath ("stickers/pets" ++ "/" ++ "woof" ++ ".png")))).file =
        .vpath ("stickers/pets" ++ "/" ++ "woof" ++ ".png")
    ∧ (mkStickerCmd (updateDict (alistSet (stickerDefaults (.vstr "") "woof") "file"
          (.vpath ("stickers/pets" ++ "/" ++ "woof" ++ ".png")))
          [("file", .vstr "custom")])).file = .vstr "custom" :=
  ⟨(stem_merge_order_amended (fun _ => .jsonObj [("message", .vstr "woof!")])
      "stickers/pets" (.vstr "") [] [] "woof" ".png" [("message", .vstr "woof!")]
      (by decide) rfl).1 (by decide),
   (stem_merge_order_amended (fun _ => .jsonObj [("file", .vstr "custom")])
      "stickers/pets" (.vstr "") [] [] "woof" ".png" [("file", .vstr "custom")]
      (by decide) rfl).2.2.2.1,
   (stem_merge_order_amended (fun _ => .jsonObj [("file", .vstr "custom")])
      "stickers/pets" (.vstr "") [] [] "woof" ".png" [("file", .vstr "custom")]
      (by decide) rfl).2.2.2.2 (.vstr "custom") rfl⟩

/-! ### Claim C2 -/

/-- C2 counterexample: a descriptor that exists, is readable and parses
(e.g. the empty JSON document) also leaves the defaults unchanged, so
"returns the defaults unchanged exactly when the descriptor file is absent
or unreadable at the I/O level" fails in the only-if direction at the
concrete input `jsonObj []`. -/
theorem merge_defaults_unchanged_counterexample :
    tryMergeConfig (categoryDefaults "pack") (.jsonObj []) =
      .ok (categoryDefaults "pack")
    ∧ (FContent.jsonObj ([] : Dict)) ≠ .ioError :=
  ⟨rfl, fun h => FContent.noConfusion h⟩

/-- C2 (amended): when the descriptor is absent or unreadable at the I/O
level the merge returns the defaults unchanged, silently and non-fatally;
the merge raises exactly when the file exists but its content fails to
parse as valid structured data, and such a raise aborts the walk at that
category, so nothing from that category or any later root entry is
registered (a successfully parsed descriptor may also happen to leave the
defaults unchanged, e.g. an empty document). -/
theorem merge_error_classification_amended :
    (∀ d : Dict, tryMergeConfig d .ioError = .ok d)
    ∧ (∀ (d : Dict) (c : FContent), tryMergeConfig d c = .error () ↔ c = .badJson)
    ∧ (∀ (fs : FS) (extOrder : List String) (e : RootEntry)
        (rest : List RootEntry) (st : BuildState),
        e.isDir = true → fs.rootContent e.stem = .badJson →
        runRoot fs extOrder (e :: rest) st = (st, true)) := by
  refine ⟨fun d => rfl, fun d c => ?_, fun fs extOrder e rest st hdir hct => ?_⟩
  · cases c <;> simp [tryMergeConfig]
  · simp [runRoot, processCategory, hdir, hct, tryMergeConfig]

/-- C2 amended witness: a root whose single directory `pack/` has a
`pack.json` with invalid content makes the build raise with nothing
registered. -/
theorem merge_error_classification_witness :
    tryMergeConfig ([] : Dict) .ioError = .ok ([] : Dict)
    ∧ runRoot ⟨[⟨"pack", "", true⟩], fun _ => false, fun _ => .badJson,
        fun _ => [], fun _ _ => .ioError⟩ [".png"] [⟨"pack", "", true⟩]
        emptyBuild = (emptyBuild, true) :=
  ⟨merge_error_classification_amended.1 [],
   merge_error_classification_amended.2.2
     ⟨[⟨"pack", "", true⟩], fun _ => false, fun _ => .badJson,
      fun _ => [], fun _ _ => .ioError⟩ [".png"] ⟨"pack", "", true⟩ []
     emptyBuild rfl rfl⟩

/-! ### Claims C3, C4, C5 -/

/-- C3: when webhook enumeration succeeds but yields no webhook whose
channel name matches the invoking channel and whose token is present, the
sticker callback's only external call is the transient auto-expiring notice
"Missing webhook for #<channel>" (8-second expiry); it neither deletes the
triggering message nor attempts any webhook delivery. -/
theorem missing_webhook_no_side_effects :
    ∀ (msgV fileV : Value) (ctx : CtxInfo) (o : Oracle) (whs : List WebhookInfo),
      o.webhooksResult = .ok whs →
      findWebhook whs ctx.channelName = none →
      (stickerCallback msgV fileV ctx o).1 =
          [.sendNotice ("Missing webhook for #" ++ ctx.channelName) 8]
      ∧ Event.deleteMessage ∉ (stickerCallback msgV fileV ctx o).1
      ∧ ∀ (u av un : String) (ct : Value) (f : Option Value),
          Event.webhookSend u av un ct f ∉ (stickerCallback msgV fileV ctx o).1 := by
  intro msgV fileV ctx o whs hw hf
  simp [stickerCallback, hw, hf]

/-- C3 witness: a concrete invocation whose only webhook is bound to a
different channel. -/
theorem missing_webhook_no_side_effects_witness :
    (stickerCallback (.vstr "hi") .vnull ⟨"general", "Alice", "ava"⟩
        ⟨.ok [⟨"offtopic", some "t", "u"⟩], .ok (some "w"), true, true, true⟩).1 =
        [.sendNotice ("Missing webhook for #" ++ "general") 8]
    ∧ Event.deleteMessage ∉ (stickerCallback (.vstr "hi") .vnull
        ⟨"general", "Alice", "ava"⟩
        ⟨.ok [⟨"offtopic", some "t", "u"⟩], .ok (some "w"), true, true, true⟩).1
    ∧ ∀ (u av un : String) (ct : Value) (f : Option Value),
        Event.webhookSend u av un ct f ∉ (stickerCallback (.vstr "hi") .vnull
          ⟨"general", "Alice", "ava"⟩
          ⟨.ok [⟨"offtopic", some "t", "u"⟩], .ok (some "w"), true, true, true⟩).1 :=
  missing_webhook_no_side_effects (.vstr "hi") .vnull ⟨"general", "Alice", "ava"⟩
    ⟨.ok [⟨"offtopic", some "t", "u"⟩], .ok (some "w"), true, true, true⟩
    [⟨"offtopic", some "t", "u"⟩] rfl (by decide)

/-- C4: when a qualifying webhook is found and the webhook object is built,
the callback attempts the deletion of the triggering message strictly before
the (single) delivery attempt, the delivery carries the item's message, the
optional file, and the invoking user's display name and avatar, the
invocation succeeds exactly when both external calls succeed (a failure
propagates as an uncaught error, with no retry and with the trace after a
failed delivery still containing the already-performed deletion,
unreversed); a failure while building the webhook object propagates before
any deletion. -/
theorem delete_before_delivery :
    ∀ (msgV fileV : Value) (ctx : CtxInfo) (o : Oracle) (whs : List WebhookInfo)
      (wh : WebhookInfo),
      o.webhooksResult = .ok whs →
      findWebhook whs ctx.channelName = some wh →
      (∀ u : String, o.fromUrlResult = .ok (some u) →
        (stickerCallback msgV fileV ctx o).1 =
          .deleteMessage ::
            (if o.deleteOk then
              [.webhookSend wh.url ctx.avatarUrl ctx.displayName msgV (toFile fileV)]
            else [])
        ∧ ((stickerCallback msgV fileV ctx o).2 = .ok () ↔
            o.deleteOk = true ∧ o.sendOk = true))
      ∧ (o.fromUrlResult = .error () →
          stickerCallback msgV fileV ctx o = ([], .error ())) := by
  intro msgV fileV ctx o whs wh hw hf
  constructor
  · intro u hu
    cases hdel : o.deleteOk <;> cases hsend : o.sendOk <;>
      simp [stickerCallback, hw, hf, hu, hdel, hsend]
  · intro hu
    simp [stickerCallback, hw, hf, hu]

/-- C4 witness: a concrete invocation that resolves a webhook, deletes, and
delivers. -/
theorem delete_before_delivery_witness :
    (stickerCallback (.vstr "hi") .vnull ⟨"general", "Alice", "ava"⟩
        ⟨.ok [⟨"general", some "tok", "hookurl"⟩], .ok (some "w"), true, true, true⟩).1 =
        .deleteMessage ::
          (if true then
            [.webhookSend "hookurl" "ava" "Alice" (.vstr "hi") (toFile .vnull)]
          else [])
    ∧ ((stickerCallback (.vstr "hi") .vnull ⟨"general", "Alice", "ava"⟩
        ⟨.ok [⟨"general", some "tok", "hookurl"⟩], .ok (some "w"), true, true, true⟩).2 =
          .ok () ↔ true = true ∧ true = true) :=
  (delete_before_delivery (.vstr "hi") .vnull ⟨"general", "Alice", "ava"⟩
    ⟨.ok [⟨"general", some "tok", "hookurl"⟩], .ok (some "w"), true, true, true⟩
    [⟨"general", some "tok", "hookurl"⟩] ⟨"general", some "tok", "hookurl"⟩
    rfl (by decide)).1 "w" rfl

/-- C5: the credential the sticker callback selects is exactly the first
webhook in the enumerated sequence whose target channel name equals the
invoking channel's name and whose token is present; a webhook with an empty
(absent) token is never selected. -/
theorem webhook_selection_first_match :
    ∀ (whs : List WebhookInfo) (ch : String) (wh : WebhookInfo),
      (findWebhook whs ch = some wh →
        wh.channelName = ch ∧ wh.token ≠ none
        ∧ ∃ l₁ l₂, whs = l₁ ++ wh :: l₂
            ∧ ∀ w ∈ l₁, ¬(w.channelName = ch ∧ w.token ≠ none))
      ∧ ((∃ l₁ l₂, whs = l₁ ++ wh :: l₂ ∧ wh.channelName = ch ∧ wh.token ≠ none
            ∧ ∀ w ∈ l₁, ¬(w.channelName = ch ∧ w.token ≠ none)) →
          findWebhook whs ch = some wh) := by
  intro whs ch wh
  have hp : ∀ w : WebhookInfo,
      ((w.channelName == ch && w.token.isSome) = true) ↔
        (w.channelName = ch ∧ w.token ≠ none) := by
    intro w
    simp [Option.isSome_iff_ne_none]
  constructor
  · intro h
    rw [findWebhook] at h
    obtain ⟨hpa, l₁, l₂, rfl, hl₁⟩ := find?_eq_some_split _ _ wh h
    refine ⟨((hp wh).mp hpa).1, ((hp wh).mp hpa).2, l₁, l₂, rfl, ?_⟩
    intro w hw hc
    have h1 := hl₁ w hw
    have h2 := (hp w).mpr hc
    rw [h1] at h2
    exact Bool.noConfusion h2
  · rintro ⟨l₁, l₂, rfl, hch, htok, hl₁⟩
    rw [findWebhook]
    refine find?_append_eq_some _ l₁ l₂ wh ((hp wh).mpr ⟨hch, htok⟩) ?_
    intro x hx
    by_cases hpx : (x.channelName == ch && x.token.isSome) = true
    · exact absurd ((hp x).mp hpx) (hl₁ x hx)
    · simpa using hpx

/-- C5 witness: a concrete enumeration whose first webhook lacks a token
and whose second is bound to another channel; the third is selected. -/
theorem webhook_selection_first_match_witness :
    WebhookInfo.channelName ⟨"general", some "tok", "u3"⟩ = "general"
    ∧ WebhookInfo.token ⟨"general", some "tok", "u3"⟩ ≠ none
    ∧ ∃ l₁ l₂,
        [(⟨"general", none, "u1"⟩ : WebhookInfo), ⟨"other", some "t", "u2"⟩,
          ⟨"general", some "tok", "u3"⟩] = l₁ ++ ⟨"general", some "tok", "u3"⟩ :: l₂
        ∧ ∀ w ∈ l₁, ¬(WebhookInfo.channelName w = "general" ∧ WebhookInfo.token w ≠ none) :=
  (webhook_selection_first_match
    [⟨"general", none, "u1"⟩, ⟨"other", some "t", "u2"⟩, ⟨"general", some "tok", "u3"⟩]
    "general" ⟨"general", some "tok", "u3"⟩).1 (by decide)

/-! ### Lemmas for the registry, the formatter, and per-stem isolation -/

theorem alistGet?_foldl_set (ks : List Value) (reg : Registry) (a : Action)
    (k : Value) :
    alistGet? (ks.foldl (fun r k' => alistSet r k' a) reg) k =
      if k ∈ ks then some a else alistGet? reg k := by
  induction ks generalizing reg with
  | nil => simp
  | cons k₀ ks ih =>
    simp only [List.foldl_cons]
    rw [ih]
    by_cases hk : k ∈ ks
    · simp [hk]
    · by_cases hk0 : k = k₀
      · subst hk0
        simp [hk, alistGet?_set_self]
      · simp [hk, hk0, alistGet?_set_ne reg a (fun h => hk0 h.symm)]

theorem formatAux_cons_other (arg : List Char) (c : Char) (cs : List Char)
    (u : Bool) (h1 : c ≠ '\x7b') (h2 : c ≠ '\x7d') :
    formatAux arg (c :: cs) u = (formatAux arg cs u).map (fun r => c :: r) := by
  conv_lhs => rw [formatAux.eq_def]
  simp [h1, h2]

theorem formatAux_placeholder (arg b : List Char) :
    formatAux arg ('\x7b' :: '\x7d' :: b) false =
      (formatAux arg b true).map (fun r => arg ++ r) := by
  conv_lhs => rw [formatAux.eq_def]
  simp

theorem formatAux_braceFree (arg l : List Char) (u : Bool)
    (h : ∀ ch ∈ l, ch ≠ '\x7b' ∧ ch ≠ '\x7d') :
    formatAux arg l u = some l := by
  induction l with
  | nil => rfl
  | cons c cs ih =>
    have hc := h c (by simp)
    rw [formatAux_cons_other arg c cs u hc.1 hc.2,
      ih (fun ch hch => h ch (List.mem_cons_of_mem _ hch))]
    rfl

theorem formatAux_append_braceFree (arg l rest : List Char) (u : Bool)
    (h : ∀ ch ∈ l, ch ≠ '\x7b' ∧ ch ≠ '\x7d') :
    formatAux arg (l ++ rest) u = (formatAux arg rest u).map (fun r => l ++ r) := by
  induction l with
  | nil =>
    simp only [List.nil_append]
    cases formatAux arg rest u <;> simp
  | cons c cs ih =>
    have hc := h c (by simp)
    simp only [List.cons_append]
    rw [formatAux_cons_other arg c _ u hc.1 hc.2,
      ih (fun ch hch => h ch (List.mem_cons_of_mem _ hch))]
    cases formatAux arg rest u <;> simp

theorem pyFormat1_single (a b : List Char) (arg : String)
    (ha : ∀ ch ∈ a, ch ≠ '\x7b' ∧ ch ≠ '\x7d')
    (hb : ∀ ch ∈ b, ch ≠ '\x7b' ∧ ch ≠ '\x7d') :
    pyFormat1 (String.mk (a ++ '\x7b' :: '\x7d' :: b)) arg =
      some (String.mk (a ++ arg.data ++ b)) := by
  unfold pyFormat1
  show (formatAux arg.data (a ++ '\x7b' :: '\x7d' :: b) false).map String.mk =
    some (String.mk (a ++ arg.data ++ b))
  rw [formatAux_append_braceFree arg.data a _ false ha, formatAux_placeholder,
    formatAux_braceFree arg.data b true hb]
  simp [List.append_assoc]

theorem collectStep_keys_ne {content : String → FContent} {catPath : String}
    {pfxV : Value} {sd sd' : List (String × Dict)} {e : CEntry} {s : String}
    (hne : e.stem ≠ s) (hk : ∀ p ∈ sd, p.1 ≠ s)
    (h : collectStep content catPath pfxV sd e = .ok sd') :
    ∀ p ∈ sd', p.1 ≠ s := by
  by_cases hrel : e.isFile && isImageOrJsonSuffix e.suffix
  · simp only [collectStep, if_pos hrel] at h
    set sd₁ := if containsKey sd e.stem then sd
      else sd ++ [(e.stem, stickerDefaults pfxV e.stem)] with hsd₁
    have hk₁ : ∀ p ∈ sd₁, p.1 ≠ s := by
      rw [hsd₁]
      by_cases hc : containsKey sd e.stem
      · simpa [hc] using hk
      · simp only [if_neg hc]
        intro p hp
        rcases List.mem_append.mp hp with hp | hp
        · exact hk p hp
        · simp only [List.mem_singleton] at hp
          rw [hp]
          exact hne
    by_cases him : isImageSuffix e.suffix
    · simp only [if_pos him, Except.ok.injEq] at h
      subst h
      intro p hp
      rcases mem_alistSet_key hp with hv | hv
      · rw [hv]; exact hne
      · exact hk₁ p hv
    · simp only [if_neg him] at h
      cases hct : content e.stem with
      | ioError =>
        rw [hct] at h
        injection h with h
        subst h
        exact hk₁
      | badJson => rw [hct] at h; cases h
      | jsonObj d =>
        rw [hct] at h
        injection h with h
        subst h
        intro p hp
        rcases mem_alistSet_key hp with hv | hv
        · rw [hv]; exact hne
        · exact hk₁ p hv
  · simp only [collectStep, if_neg hrel] at h
    injection h with h
    subst h
    exact hk

theorem collectLoop_keys_ne {content : String → FContent} {catPath : String}
    {pfxV : Value} {entries : List CEntry} {sd sd' : List (String × Dict)}
    {s : String} (hne : ∀ e ∈ entries, e.stem ≠ s) (hk : ∀ p ∈ sd, p.1 ≠ s)
    (h : collectLoop content catPath pfxV entries sd = .ok sd') :
    ∀ p ∈ sd', p.1 ≠ s := by
  induction entries generalizing sd with
  | nil =>
    simp only [collectLoop, Except.ok.injEq] at h
    subst h
    exact hk
  | cons e rest ih =>
    simp only [collectLoop] at h
    cases hs : collectStep content catPath pfxV sd e with
    | error u => rw [hs] at h; cases h
    | ok sd₁ =>
      rw [hs] at h
      exact ih (fun e' he' => hne e' (List.mem_cons_of_mem _ he'))
        (collectStep_keys_ne (hne e (by simp)) hk hs) h

theorem collectStep_split {content : String → FContent} {catPath : String}
    {pfxV : Value} {sd₁ sd₂ sd' : List (String × Dict)} {rec0 : Dict}
    {e : CEntry} {s : String}
    (hne : e.stem ≠ s) (hk₁ : ∀ p ∈ sd₁, p.1 ≠ s) (hk₂ : ∀ p ∈ sd₂, p.1 ≠ s)
    (h : collectStep content catPath pfxV (sd₁ ++ (s, rec0) :: sd₂) e = .ok sd') :
    ∃ t₁ t₂, sd' = t₁ ++ (s, rec0) :: t₂
      ∧ (∀ p ∈ t₁, p.1 ≠ s) ∧ (∀ p ∈ t₂, p.1 ≠ s) := by
  have hsne : s ≠ e.stem := fun hs => hne hs.symm
  by_cases hrel : e.isFile && isImageOrJsonSuffix e.suffix
  · simp only [collectStep, if_pos hrel] at h
    set S := sd₁ ++ (s, rec0) :: sd₂ with hS
    obtain ⟨u₂, hS₁, hu₂⟩ :
        ∃ u₂, (if containsKey S e.stem then S
            else S ++ [(e.stem, stickerDefaults pfxV e.stem)]) =
              sd₁ ++ (s, rec0) :: u₂
          ∧ ∀ p ∈ u₂, p.1 ≠ s := by
      by_cases hc : containsKey S e.stem
      · exact ⟨sd₂, by simp [hc, hS], hk₂⟩
      · refine ⟨sd₂ ++ [(e.stem, stickerDefaults pfxV e.stem)],
          by simp [hc, hS], ?_⟩
        intro p hp
        rcases List.mem_append.mp hp with hp | hp
        · exact hk₂ p hp
        · simp only [List.mem_singleton] at hp
          rw [hp]
          exact hne
    rw [hS₁] at h
    have hset : ∀ v : Dict,
        ∃ t₁ t₂, alistSet (sd₁ ++ (s, rec0) :: u₂) e.stem v = t₁ ++ (s, rec0) :: t₂
          ∧ (∀ p ∈ t₁, p.1 ≠ s) ∧ (∀ p ∈ t₂, p.1 ≠ s) := by
      intro v
      by_cases hc₁ : containsKey sd₁ e.stem
      · refine ⟨alistSet sd₁ e.stem v, u₂,
          by rw [alistSet_append_left sd₁ _ v hc₁], ?_, hu₂⟩
        intro p hp
        rcases mem_alistSet_key hp with hv | hv
        · rw [hv]; exact hne
        · exact hk₁ p hv
      · refine ⟨sd₁, alistSet u₂ e.stem v, ?_, hk₁, ?_⟩
        · rw [alistSet_append_right sd₁ _ v (by simpa using hc₁)]
          congr 1
          show alistSet ((s, rec0) :: u₂) e.stem v = (s, rec0) :: alistSet u₂ e.stem v
          simp [alistSet, hsne]
        · intro p hp
          rcases mem_alistSet_key hp with hv | hv
          · rw [hv]; exact hne
          · exact hu₂ p hv
    by_cases him : isImageSuffix e.suffix
    · simp only [if_pos him, Except.ok.injEq] at h
      subst h
      exact hset _
    · simp only [if_neg him] at h
      cases hct : content e.stem with
      | ioError =>
        rw [hct] at h
        injection h with h
        subst h
        exact ⟨sd₁, u₂, rfl, hk₁, hu₂⟩
      | badJson => rw [hct] at h; cases h
      | jsonObj d =>
        rw [hct] at h
        injection h with h
        subst h
        exact hset _
  · simp only [collectStep, if_neg hrel] at h
    injection h with h
    subst h
    exact ⟨sd₁, sd₂, rfl, hk₁, hk₂⟩

theorem collectLoop_split {content : String → FContent} {catPath : String}
    {pfxV : Value} {entries : List CEntry} {rec0 : Dict} {s : String} :
    ∀ {sd₁ sd₂ sd' : List (String × Dict)},
      (∀ e ∈ entries, e.stem ≠ s) →
      (∀ p ∈ sd₁, p.1 ≠ s) → (∀ p ∈ sd₂, p.1 ≠ s) →
      collectLoop content catPath pfxV entries (sd₁ ++ (s, rec0) :: sd₂) = .ok sd' →
      ∃ t₁ t₂, sd' = t₁ ++ (s, rec0) :: t₂
        ∧ (∀ p ∈ t₁, p.1 ≠ s) ∧ (∀ p ∈ t₂, p.1 ≠ s) := by
  induction entries with
  | nil =>
    intro sd₁ sd₂ sd' _ hk₁ hk₂ h
    simp only [collectLoop, Except.ok.injEq] at h
    exact ⟨sd₁, sd₂, h.symm, hk₁, hk₂⟩
  | cons e rest ih =>
    intro sd₁ sd₂ sd' hne hk₁ hk₂ h
    simp only [collectLoop] at h
    cases hs : collectStep content catPath pfxV (sd₁ ++ (s, rec0) :: sd₂) e with
    | error u => rw [hs] at h; cases h
    | ok sdm =>
      rw [hs] at h
      obtain ⟨t₁, t₂, rfl, ht₁, ht₂⟩ :=
        collectStep_split (hne e (by simp)) hk₁ hk₂ hs
      exact ih (fun e' he' => hne e' (List.mem_cons_of_mem _ he')) ht₁ ht₂ h

/-! ### Claims C6, C7, C8, C9, C10 -/

/-- C6: the catalog build is a pure function of the filesystem snapshot and
the (process-fixed) iteration orders, so two builds over the same snapshot
with the same set-iteration order produce identical registries, category
lists and name tables; and the thumbnail chosen for a category is exactly
the first extension, in the given iteration order of the recognized media
extension set, whose probe file exists at the root. -/
theorem build_deterministic_thumbnail_first_match :
    ∀ (fs : FS) (extOrder : List String),
      walkRoot fs extOrder = walkRoot fs extOrder
      ∧ ∀ stem p : String, findThumb fs extOrder stem = some p →
          ∃ ext l₁ l₂, extOrder = l₁ ++ ext :: l₂
            ∧ fs.rootExists (stem ++ ext) = true
            ∧ (∀ e ∈ l₁, fs.rootExists (stem ++ e) = false)
            ∧ p = "stickers/" ++ stem ++ ext := by
  intro fs extOrder
  refine ⟨rfl, ?_⟩
  intro stem p h
  unfold findThumb at h
  cases hf : extOrder.find? (fun ext => fs.rootExists (stem ++ ext)) with
  | none => rw [hf] at h; cases h
  | some ext =>
    rw [hf] at h
    injection h with h
    obtain ⟨hpa, l₁, l₂, rfl, hl₁⟩ := find?_eq_some_split _ _ ext hf
    exact ⟨ext, l₁, l₂, rfl, hpa, fun e he => by simpa using hl₁ e he, h.symm⟩

/-- C6 witness: with iteration order `[.gif, .png]` and only `dog.png`
present, the `.png` probe is the first (and only) match. -/
theorem build_deterministic_thumbnail_witness :
    ∃ ext l₁ l₂, [".gif", ".png"] = l₁ ++ ext :: l₂
      ∧ FS.rootExists ⟨[], fun n => n == "dog.png", fun _ => .ioError,
          fun _ => [], fun _ _ => .ioError⟩ ("dog" ++ ext) = true
      ∧ (∀ e ∈ l₁, FS.rootExists ⟨[], fun n => n == "dog.png", fun _ => .ioError,
          fun _ => [], fun _ _ => .ioError⟩ ("dog" ++ e) = false)
      ∧ "stickers/dog.png" = "stickers/" ++ "dog" ++ ext :=
  (build_deterministic_thumbnail_first_match
    ⟨[], fun n => n == "dog.png", fun _ => .ioError, fun _ => [], fun _ _ => .ioError⟩
    [".gif", ".png"]).2 "dog" "stickers/dog.png" (by decide)

/-- C7: the names returned by the category walk are exactly, in dictionary
(processing) order, the resolved `name` of each collected item record — one
per item, no omissions, no extra duplicates — and they coincide with the
names of the generated sticker commands; after a successful category
iteration the cog's per-category name table stores exactly this sequence
under the category's resolved name. -/
theorem item_names_order :
    ∀ (content : String → FContent) (catPath : String) (pfxV : Value)
      (entries : List CEntry) (names : List Value) (cmds : List StickerCmd),
      walkCategory content catPath pfxV entries = .ok (names, cmds) →
      (∃ sd, collectLoop content catPath pfxV entries [] = .ok sd
        ∧ names = sd.map (fun r => getV r.2 "name")
        ∧ cmds = sd.map (fun r => mkStickerCmd r.2)
        ∧ names = cmds.map StickerCmd.name)
      ∧ ∀ (fs : FS) (extOrder : List String) (st : BuildState) (e : RootEntry)
          (cfg : Dict),
          e.isDir = true →
          tryMergeConfig (categoryInitCfg fs extOrder e.stem)
            (fs.rootContent e.stem) = .ok cfg →
          walkCategory (fs.catContent (e.stem ++ e.suffix))
            ("stickers/" ++ (e.stem ++ e.suffix)) (getV cfg "prefix")
            (fs.catEntries (e.stem ++ e.suffix)) = .ok (names, cmds) →
          alistGet? ((processCategory fs extOrder st e).1.categoryStickerNames)
            (getV cfg "name") = some names := by
  intro content catPath pfxV entries names cmds h
  constructor
  · unfold walkCategory at h
    cases hcl : collectLoop content catPath pfxV entries [] with
    | error u => rw [hcl] at h; cases h
    | ok sd =>
      rw [hcl] at h
      injection h with h
      injection h with h1 h2
      exact ⟨sd, rfl, h1.symm, h2.symm, by
        subst h1; subst h2; simp [List.map_map]; exact fun a b _ => rfl⟩
  · intro fs extOrder st e cfg hdir hmerge hwc
    simp only [processCategory, hdir, if_true, hmerge, hwc]
    cases mkCategoryCmd cfg names <;> simp [alistGet?_set_self]

/-- C7 witness: an empty category stores the empty name list under its
resolved name. -/
theorem item_names_order_witness :
    alistGet? ((processCategory
        ⟨[⟨"good_boy", "", true⟩], fun _ => false, fun _ => .ioError,
          fun _ => [], fun _ _ => .ioError⟩ [".png"] emptyBuild
        ⟨"good_boy", "", true⟩).1.categoryStickerNames)
      (getV (categoryInitCfg
        ⟨[⟨"good_boy", "", true⟩], fun _ => false, fun _ => .ioError,
          fun _ => [], fun _ _ => .ioError⟩ [".png"] "good_boy") "name") =
      some [] :=
  (item_names_order (fun _ => .ioError) "stickers/good_boy" (.vstr "") [] [] []
    rfl).2
    ⟨[⟨"good_boy", "", true⟩], fun _ => false, fun _ => .ioError,
      fun _ => [], fun _ _ => .ioError⟩ [".png"] emptyBuild
    ⟨"good_boy", "", true⟩
    (categoryInitCfg ⟨[⟨"good_boy", "", true⟩], fun _ => false, fun _ => .ioError,
      fun _ => [], fun _ _ => .ioError⟩ [".png"] "good_boy")
    rfl rfl rfl

/-- C8: registering an action enters it under its primary name and every
alias, silently replacing whatever the registry held under each of those
keys (last registration wins), and registration is total, so the build
continues past any collision. -/
theorem registry_last_write_wins :
    ∀ (reg : Registry) (a : Action) (k : Value),
      (k = a.primaryName ∨ k ∈ a.aliasNames) →
      alistGet? (addCommand reg a) k = some a := by
  intro reg a k hk
  cases a with
  | stickerAct c =>
    simp only [Action.primaryName, Action.aliasNames] at hk
    simp only [addCommand]
    rw [alistGet?_foldl_set]
    by_cases hmem : k ∈ c.aliases.map Value.vstr
    · simp [hmem]
    · rcases hk with hk | hk
      · subst hk
        simp [hmem, alistGet?_set_self]
      · exact absurd hk hmem
  | categoryAct c =>
    simp only [Action.primaryName, Action.aliasNames] at hk
    rcases hk with hk | hk
    · subst hk
      simp [addCommand, alistGet?_set_self]
    · cases hk

/-- C8 witness: two sticker actions claiming the key `Woof`; after both
registrations the registry maps `Woof` to the later one. -/
theorem registry_last_write_wins_witness :
    alistGet? (addCommand (addCommand []
        (.stickerAct ⟨.vstr "Woof", [], .vbool true, .vstr "a", .vnull⟩))
        (.stickerAct ⟨.vstr "Woof", ["bark"], .vbool true, .vstr "b", .vnull⟩))
      (.vstr "Woof") =
      some (.stickerAct ⟨.vstr "Woof", ["bark"], .vbool true, .vstr "b", .vnull⟩) :=
  registry_last_write_wins
    (addCommand [] (.stickerAct ⟨.vstr "Woof", [], .vbool true, .vstr "a", .vnull⟩))
    (.stickerAct ⟨.vstr "Woof", ["bark"], .vbool true, .vstr "b", .vnull⟩)
    (.vstr "Woof") (Or.inl rfl)

/-- C9: for a single-placeholder template, the category command's message is
the template with the placeholder replaced by the space-joined item names
and surrounding whitespace trimmed, and on invocation exactly that message
is sent, with the configured file attached when one is present and no file
attached when the `file` field is null. -/
theorem category_message_format :
    ∀ (cfg : Dict) (names : List Value) (a b : List Char) (j : String),
      getV cfg "message" = .vstr (String.mk (a ++ '\x7b' :: '\x7d' :: b)) →
      (∀ ch ∈ a, ch ≠ '\x7b' ∧ ch ≠ '\x7d') →
      (∀ ch ∈ b, ch ≠ '\x7b' ∧ ch ≠ '\x7d') →
      joinNames names = some j →
      ∃ ccmd, mkCategoryCmd cfg names = some ccmd
        ∧ ccmd.message = (String.mk (a ++ j.data ++ b)).trim
        ∧ ccmd.file = getV cfg "file"
        ∧ catInvoke ccmd =
            .channelSend ((String.mk (a ++ j.data ++ b)).trim)
              (toFile (getV cfg "file"))
        ∧ (getV cfg "file" = .vnull →
            catInvoke ccmd =
              .channelSend ((String.mk (a ++ j.data ++ b)).trim) none) := by
  intro cfg names a b j hmsg ha hb hj
  have hfmt := pyFormat1_single a b j ha hb
  refine ⟨⟨getV cfg "hidden", getV cfg "name", getV cfg "file",
    (String.mk (a ++ j.data ++ b)).trim⟩, ?_, rfl, rfl, rfl, ?_⟩
  · simp [mkCategoryCmd, hmsg, hj, hfmt]
  · intro h0
    simp [catInvoke, toFile, h0]

/-- C9 witness: the template `Pack: \x7b\x7d` over the single item name
`Woof`. -/
theorem category_message_format_witness :
    ∃ ccmd, mkCategoryCmd
        [("hidden", .vbool true), ("name", .vstr "GoodBoy"),
          ("prefix", .vstr ""), ("message", .vstr "Pack: \x7b\x7d"),
          ("file", .vnull)] [.vstr "Woof"] = some ccmd
      ∧ ccmd.message = (String.mk ("Pack: ".data ++ "Woof".data ++ [])).trim
      ∧ ccmd.file = getV [("hidden", .vbool true), ("name", .vstr "GoodBoy"),
          ("prefix", .vstr ""), ("message", .vstr "Pack: \x7b\x7d"),
          ("file", .vnull)] "file"
      ∧ catInvoke ccmd =
          .channelSend ((String.mk ("Pack: ".data ++ "Woof".data ++ [])).trim)
            (toFile (getV [("hidden", .vbool true), ("name", .vstr "GoodBoy"),
              ("prefix", .vstr ""), ("message", .vstr "Pack: \x7b\x7d"),
              ("file", .vnull)] "file"))
      ∧ (getV [("hidden", .vbool true), ("name", .vstr "GoodBoy"),
            ("prefix", .vstr ""), ("message", .vstr "Pack: \x7b\x7d"),
            ("file", .vnull)] "file" = .vnull →
          catInvoke ccmd =
            .channelSend ((String.mk ("Pack: ".data ++ "Woof".data ++ [])).trim)
              none) :=
  category_message_format
    [("hidden", .vbool true), ("name", .vstr "GoodBoy"), ("prefix", .vstr ""),
      ("message", .vstr "Pack: \x7b\x7d"), ("file", .vnull)]
    [.vstr "Woof"] "Pack: ".data [] "Woof" rfl (by decide) (by decide) rfl

/-- C10: a category directory holding a descriptor file for a stem with no
media file for that stem still yields exactly one collected record for that
stem — the defaults overlaid with the descriptor — hence exactly one
resolved name and one generated (registrable) sticker command, whose `file`
field is null unless the descriptor itself supplies a `file` value. -/
theorem descriptor_only_item :
    ∀ (content : String → FContent) (catPath : String) (pfxV : Value)
      (pre post : List CEntry) (s : String) (d : Dict)
      (names : List Value) (cmds : List StickerCmd),
      (∀ e ∈ pre, e.stem ≠ s) → (∀ e ∈ post, e.stem ≠ s) →
      content s = .jsonObj d →
      walkCategory content catPath pfxV (pre ++ ⟨s, ".json", true⟩ :: post) =
        .ok (names, cmds) →
      ∃ t₁ t₂,
        collectLoop content catPath pfxV (pre ++ ⟨s, ".json", true⟩ :: post) [] =
          .ok (t₁ ++ (s, updateDict (stickerDefaults pfxV s) d) :: t₂)
        ∧ (∀ p ∈ t₁, p.1 ≠ s) ∧ (∀ p ∈ t₂, p.1 ≠ s)
        ∧ names = t₁.map (fun r => getV r.2 "name")
            ++ getV (updateDict (stickerDefaults pfxV s) d) "name"
              :: t₂.map (fun r => getV r.2 "name")
        ∧ cmds = t₁.map (fun r => mkStickerCmd r.2)
            ++ mkStickerCmd (updateDict (stickerDefaults pfxV s) d)
              :: t₂.map (fun r => mkStickerCmd r.2)
        ∧ (containsKey d "file" = false →
            (mkStickerCmd (updateDict (stickerDefaults pfxV s) d)).file = .vnull) := by
  intro content catPath pfxV pre post s d names cmds hpre hpost hct h
  unfold walkCategory at h
  cases hcl : collectLoop content catPath pfxV (pre ++ ⟨s, ".json", true⟩ :: post) [] with
  | error u => rw [hcl] at h; cases h
  | ok sd =>
    rw [hcl] at h
    injection h with h
    injection h with h1 h2
    rw [collectLoop_append] at hcl
    cases hp : collectLoop content catPath pfxV pre [] with
    | error u => rw [hp] at hcl; cases hcl
    | ok sd₀ =>
      rw [hp] at hcl
      have hk₀ : ∀ p ∈ sd₀, p.1 ≠ s := collectLoop_keys_ne hpre (by simp) hp
      have hc₀ : containsKey sd₀ s = false := (containsKey_eq_false_iff sd₀ s).mpr hk₀
      have hstep : collectStep content catPath pfxV sd₀ ⟨s, ".json", true⟩ =
          .ok (sd₀ ++ (s, updateDict (stickerDefaults pfxV s) d) :: []) := by
        have hrel : (true && isImageOrJsonSuffix ".json") = true := rfl
        have hjm : isImageSuffix ".json" = false := rfl
        simp only [collectStep, hrel, if_true, hjm, Bool.false_eq_true, if_false,
          hct, hc₀]
        rw [alistGet?_append_right sd₀ _ hc₀]
        simp only [alistGet?, if_pos rfl, Option.getD_some]
        rw [alistSet_append_right sd₀ _ _ hc₀]
        simp [alistSet]
      simp only [collectLoop, hstep] at hcl
      obtain ⟨t₁, t₂, rfl, ht₁, ht₂⟩ :=
        collectLoop_split hpost hk₀ (fun p hp => absurd hp (List.not_mem_nil p)) hcl
      refine ⟨t₁, t₂, ?_, ht₁, ht₂, ?_, ?_, ?_⟩
      · rfl
      · rw [← h1]
        simp
      · rw [← h2]
        simp
      · intro hdf
        show getV (updateDict (stickerDefaults pfxV s) d) "file" = .vnull
        unfold getV
        rw [alistGet?_update_ne _ d hdf]
        rfl

/-- C10 witness: a category containing only `woof.json` (declaring an
alias) registers exactly one sticker with a null `file` field. -/
theorem descriptor_only_item_witness :
    ∃ t₁ t₂,
      collectLoop (fun _ => .jsonObj [("aliases", .vstrList ["bark"])])
          "stickers/good_boy" (.vstr "") ([] ++ ⟨"woof", ".json", true⟩ :: []) [] =
        .ok (t₁ ++ ("woof", updateDict (stickerDefaults (.vstr "") "woof")
          [("aliases", .vstrList ["bark"])]) :: t₂)
      ∧ (∀ p ∈ t₁, p.1 ≠ "woof") ∧ (∀ p ∈ t₂, p.1 ≠ "woof")
      ∧ [getV (updateDict (stickerDefaults (.vstr "") "woof")
            [("aliases", .vstrList ["bark"])]) "name"] =
          t₁.map (fun r => getV r.2 "name")
            ++ getV (updateDict (stickerDefaults (.vstr "") "woof")
                [("aliases", .vstrList ["bark"])]) "name"
              :: t₂.map (fun r => getV r.2 "name")
      ∧ [mkStickerCmd (updateDict (stickerDefaults (.vstr "") "woof")
            [("aliases", .vstrList ["bark"])])] =
          t₁.map (fun r => mkStickerCmd r.2)
            ++ mkStickerCmd (updateDict (stickerDefaults (.vstr "") "woof")
                [("aliases", .vstrList ["bark"])])
              :: t₂.map (fun r => mkStickerCmd r.2)
      ∧ (containsKey [("aliases", Value.vstrList ["bark"])] "file" = false →
          (mkStickerCmd (updateDict (stickerDefaults (.vstr "") "woof")
            [("aliases", .vstrList ["bark"])])).file = .vnull) :=
  descriptor_only_item (fun _ => .jsonObj [("aliases", .vstrList ["bark"])])
    "stickers/good_boy" (.vstr "") [] [] "woof" [("aliases", .vstrList ["bark"])]
    [getV (updateDict (stickerDefaults (.vstr "") "woof")
      [("aliases", .vstrList ["bark"])]) "name"]
    [mkStickerCmd (updateDict (stickerDefaults (.vstr "") "woof")
      [("aliases", .vstrList ["bark"])])]
    (by simp) (by simp) rfl rfl

end CookieDough
